import Mathlib

set_option maxHeartbeats 1000000

/-!
A shallow embedding of the TF-IDF search engine of `src/utils/searchEngine.ts`:
text normalization (tokenizer, stopword filter, light stemmer), term
frequency, inverse document frequency, TF-IDF vectors, cosine similarity,
the inverted index, and the public operations `addDocument`, `clearCorpus`
and `searchDocuments`.  Strings are modelled as lists of characters;
JavaScript floating-point numbers are modelled as exact rationals (term
frequencies) and real numbers (IDF weights and similarity scores).
-/

/-- Strings of the engine, modelled as lists of characters. -/
abbrev Str := List Char

/-- A word character of the JavaScript regex class `\w`: an ASCII letter, an
ASCII digit, or an underscore. -/
def isWordChar (c : Char) : Bool :=
  c.isAlpha || c.isDigit || c == '_'

/-- The source's `text.toLowerCase().replace(/[^\w\s]/g, ' ')`: lowercase the
text, then replace every character that is neither a word character (`\w`)
nor whitespace (`\s`) by a single space.  (Characters outside ASCII are never
word characters: whether such a character is classified as whitespace or is
replaced by a space, it acts as a token separator either way, so the token
level of the model is insensitive to the exact extent of `\s`.) -/
def cleanText (text : Str) : Str :=
  (text.map Char.toLower).map (fun c => if isWordChar c || c.isWhitespace then c else ' ')

/-- Splitting worker: `splitTokens rest cur` scans `rest` while `cur` holds
the characters of the current token in reverse. -/
def splitTokens : Str → Str → List Str
  | [], cur => if cur.isEmpty then [] else [cur.reverse]
  | c :: rest, cur =>
    if c.isWhitespace then
      if cur.isEmpty then splitTokens rest [] else cur.reverse :: splitTokens rest []
    else splitTokens rest (c :: cur)

/-- The source's `cleaned.split(/\s+/).filter(token => token.length > 0)`:
split on runs of whitespace, dropping the empty tokens that splitting leaves
at the boundary. -/
def tokenize (text : Str) : List Str :=
  splitTokens text []

/-- The source's `STOPWORDS` set, in declaration order; the defining list
repeats `'the'` and `'has'`, which is harmless for membership. -/
def STOPWORDS : List Str :=
  (["a", "an", "and", "are", "as", "at", "be", "by", "for", "from", "has", "he",
    "in", "is", "it", "its", "of", "on", "that", "the", "to", "was", "will", "with",
    "the", "this", "but", "they", "have", "had", "what", "said", "each", "which",
    "she", "do", "how", "their", "if", "up", "out", "many", "then", "them", "these",
    "so", "some", "her", "would", "make", "like", "into", "him", "time", "two",
    "more", "very", "when", "come", "may", "use", "than", "first", "been", "his",
    "who", "oil", "sit", "now", "find", "down", "day", "did", "get", "has", "made",
    "my", "over", "such", "me", "even", "most", "can", "should", "after"]).map String.toList

/-- The stemmer's suffix list, in the source's declaration order, duplicate
entries included. -/
def suffixList : List Str :=
  (["ing", "ly", "ed", "ies", "ied", "ies", "ied", "ies", "ing", "ed",
    "er", "est", "s", "es", "ment", "ness", "tion", "sion", "able", "ible"]).map String.toList

/-- The stemmer's guard for one suffix: the word ends with the suffix and the
word's length exceeds the suffix's length plus 2. -/
def stemCond (w suf : Str) : Bool :=
  suf.isSuffixOf w && decide (suf.length + 2 < w.length)

/-- The source's `stem`: lowercase the word, then for the first suffix of
`suffixList` that the word ends with while the word's length exceeds
`suffix.length + 2`, strip that suffix; otherwise return the word unchanged. -/
def stem (word : Str) : Str :=
  let w := word.map Char.toLower
  match suffixList.find? (fun suf => stemCond w suf) with
  | some suf => w.take (w.length - suf.length)
  | none => w

/-- The source's `preprocessText`: clean, tokenize, drop stopwords and tokens
of length at most 2 in one pass, then stem every surviving token. -/
def preprocessText (text : Str) : List Str :=
  ((tokenize (cleanText text)).filter
    (fun t => !decide (t ∈ STOPWORDS) && decide (2 < t.length))).map stem

/-- Modelled on the spec's words for the Text Normalizer: replace every
character that is not a letter, digit, or whitespace with a single space
(underscore is treated like punctuation here, unlike the regex class `\w`). -/
def specCleanText (text : Str) : Str :=
  (text.map Char.toLower).map (fun c => if c.isAlpha || c.isDigit || c.isWhitespace then c else ' ')

/-- The spec's normalization pipeline, step by step as the spec lists them:
lowercase; replace every character that is not a letter, digit, or whitespace
with a space; split on runs of whitespace dropping empty tokens; drop
stopwords; drop tokens of length at most 2; stem each survivor. -/
def specNormalize (text : Str) : List Str :=
  ((((tokenize (specCleanText text)).filter
      (fun t => !decide (t ∈ STOPWORDS))).filter
      (fun t => decide (2 < t.length))).map stem)

/-- The spec pipeline amended to use the regex class `\w` for word characters
(so an underscore is kept, as the source's regex `[^\w\s]` keeps it). -/
def specNormalizeAmended (text : Str) : List Str :=
  ((((tokenize (cleanText text)).filter
      (fun t => !decide (t ∈ STOPWORDS))).filter
      (fun t => decide (2 < t.length))).map stem)

/-- Association-list lookup with first-binding-wins, the reading discipline of
a JavaScript object. -/
def alookup {β : Type} (t : Str) : List (Str × β) → Option β
  | [] => none
  | (k, v) :: rest => if k = t then some v else alookup t rest

/-- The keys of a sparse mapping, in insertion order. -/
def keysOf {β : Type} (m : List (Str × β)) : List Str :=
  m.map Prod.fst

/-- Rational-valued sparse lookup defaulting to 0 (an absent JavaScript
object entry reads as `undefined`, which compares as falsy against `> 0`). -/
def qlookup (m : List (Str × ℚ)) (t : Str) : ℚ :=
  (alookup t m).getD 0

/-- Real-valued sparse lookup defaulting to 0. -/
noncomputable def rlookup (m : List (Str × ℝ)) (t : Str) : ℝ :=
  (alookup t m).getD 0

/-- One step of the source's counting loop `tf[token] = (tf[token] || 0) + 1`:
increment the token's count, creating the entry at the end if absent. -/
def bumpCount : List (Str × Nat) → Str → List (Str × Nat)
  | [], t => [(t, 1)]
  | (k, c) :: rest, t =>
    if k = t then (k, c + 1) :: rest else (k, c) :: bumpCount rest t

/-- The source's `calculateTF`: count every token's occurrences, then divide
each count by the total token count.  On an empty token list the counting
loop leaves an empty mapping and no division happens. -/
def calculateTF (tokens : List Str) : List (Str × ℚ) :=
  (tokens.foldl bumpCount []).map (fun p => (p.1, (p.2 : ℚ) / (tokens.length : ℚ)))

/-- A document as supplied by callers. -/
structure Document where
  id : Str
  title : Str
  content : Str
deriving DecidableEq

/-- A processed document as stored in the corpus. -/
structure ProcessedDocument where
  id : Str
  title : Str
  content : Str
  tokens : List Str
  termFreq : List (Str × ℚ)
deriving DecidableEq

/-- A search result: document fields plus a similarity score. -/
structure SearchResult where
  id : Str
  title : Str
  content : Str
  score : ℝ

/-- The engine's module-level mutable state: corpus, vocabulary, IDF cache
and inverted index. -/
structure EngineState where
  corpus : List ProcessedDocument
  vocabulary : List Str
  idfCache : List (Str × ℝ)
  invertedIndex : List (Str × List Str)

/-- The pristine state of the module's globals. -/
def initialState : EngineState :=
  ⟨[], [], [], []⟩

/-- `corpus.filter(doc => doc.termFreq[term] > 0).length`: the number of
stored documents whose term-frequency mapping holds the term with a positive
value. -/
def documentFrequency (corpus : List ProcessedDocument) (term : Str) : Nat :=
  (corpus.filter (fun d => decide (0 < qlookup d.termFreq term))).length

/-- The source's `calculateIDF` on a given corpus: `ln(total/df)` when the
document frequency is positive and `0` otherwise.  (The source memoizes this
value in `idfCache`; the cache is cleared on every corpus mutation and the
value depends only on the corpus, so memoization is value-transparent and is
not modelled.) -/
noncomputable def calculateIDF (corpus : List ProcessedDocument) (term : Str) : ℝ :=
  let df := documentFrequency corpus term
  if 0 < df then Real.log ((corpus.length : ℝ) / (df : ℝ)) else 0

/-- The source's `calculateTFIDF`: scale every term-frequency entry by the
term's IDF, keeping the keys and their order. -/
noncomputable def calculateTFIDF (corpus : List ProcessedDocument)
    (termFreq : List (Str × ℚ)) : List (Str × ℝ) :=
  termFreq.map (fun p => (p.1, (p.2 : ℝ) * calculateIDF corpus p.1))

/-- The terms (keys of the first vector) present in both sparse vectors, in
the first vector's key order. -/
def commonTerms (vec1 vec2 : List (Str × ℝ)) : List Str :=
  (keysOf vec1).filter (fun t => decide (t ∈ keysOf vec2))

/-- `Σ_{t ∈ common} vec1[t] * vec2[t]`. -/
noncomputable def dotCommon (vec1 vec2 : List (Str × ℝ)) : ℝ :=
  ((commonTerms vec1 vec2).map (fun t => rlookup vec1 t * rlookup vec2 t)).sum

/-- The sum of the squares of all of a vector's entry values. -/
def sumSquares (vec : List (Str × ℝ)) : ℝ :=
  (vec.map (fun p => p.2 * p.2)).sum

/-- The source's `cosineSimilarity`: 0 when the vectors share no term or
either full norm vanishes, else the dot product over common terms divided by
the product of the full norms. -/
noncomputable def cosineSimilarity (vec1 vec2 : List (Str × ℝ)) : ℝ :=
  if commonTerms vec1 vec2 = [] then 0
  else
    let norm1 := Real.sqrt (sumSquares vec1)
    let norm2 := Real.sqrt (sumSquares vec2)
    if norm1 = 0 ∨ norm2 = 0 then 0
    else dotCommon vec1 vec2 / (norm1 * norm2)

/-- One step of the index-building loop: append `docId` to `term`'s posting
list unless already present, creating the posting list (at the end of the
object, as JavaScript key insertion does) if the term is new. -/
def addPosting : List (Str × List Str) → Str → Str → List (Str × List Str)
  | [], term, docId => [(term, [docId])]
  | (t, ids) :: rest, term, docId =>
    if t = term then
      (t, if ids.contains docId then ids else ids ++ [docId]) :: rest
    else
      (t, ids) :: addPosting rest term docId

/-- Index all terms of one document's term-frequency mapping. -/
def indexDocTerms (idx : List (Str × List Str)) (doc : ProcessedDocument) :
    List (Str × List Str) :=
  doc.termFreq.foldl (fun acc p => addPosting acc p.1 doc.id) idx

/-- The source's `buildInvertedIndex`: rebuild the whole index from scratch by
walking the corpus in order. -/
def buildInvertedIndex (corpus : List ProcessedDocument) : List (Str × List Str) :=
  corpus.foldl indexDocTerms []

/-- A term's posting list, empty when the term is not indexed. -/
def postings (idx : List (Str × List Str)) (term : Str) : List Str :=
  (alookup term idx).getD []

/-- One step of `vocabulary.add(token)` on a JavaScript `Set`: append unless
present. -/
def addUnique (l : List Str) (x : Str) : List Str :=
  if x ∈ l then l else l ++ [x]

/-- The source's `addDocument`: preprocess `content + ' ' + title`, compute
term frequencies, push the processed document, grow the vocabulary, clear the
IDF cache and rebuild the inverted index. -/
def addDocument (st : EngineState) (doc : Document) : EngineState :=
  let tokens := preprocessText (doc.content ++ ' ' :: doc.title)
  let termFreq := calculateTF tokens
  let processed : ProcessedDocument :=
    ⟨doc.id, doc.title, doc.content, tokens, termFreq⟩
  let corpus := st.corpus ++ [processed]
  { corpus := corpus
    vocabulary := tokens.foldl addUnique st.vocabulary
    idfCache := []
    invertedIndex := buildInvertedIndex corpus }

/-- The source's `clearCorpus`: reset every piece of global state. -/
def clearCorpus (_st : EngineState) : EngineState :=
  initialState

/-- The candidate document ids for a query: walk the query tokens in order
and, for each token that has a posting list, add its document ids to the
candidate set (a JavaScript `Set` iterates in insertion order). -/
def candidateIds (idx : List (Str × List Str)) (queryTokens : List Str) : List Str :=
  queryTokens.foldl (fun acc tok => (postings idx tok).foldl addUnique acc) []

/-- Score the candidates in candidate-set order: look each id up in the
corpus (`corpus.find`), score the found document against the query vector and
keep it when the similarity is strictly positive. -/
noncomputable def scoreCandidates (corpus : List ProcessedDocument)
    (queryVec : List (Str × ℝ)) (ids : List Str) : List SearchResult :=
  ids.filterMap (fun docId =>
    match corpus.find? (fun d => decide (d.id = docId)) with
    | none => none
    | some doc =>
      let similarity := cosineSimilarity queryVec (calculateTFIDF corpus doc.termFreq)
      if 0 < similarity then
        some ⟨doc.id, doc.title, doc.content, similarity⟩
      else none)

open Classical in
/-- Stable insertion of a result into a list sorted by non-increasing score:
the inserted element goes after every element whose score is at least as
large, which reproduces a stable descending comparator sort. -/
noncomputable def insertDesc (x : SearchResult) : List SearchResult → List SearchResult
  | [] => [x]
  | y :: ys => if y.score < x.score then x :: y :: ys else y :: insertDesc x ys

/-- The source's stable `results.sort((a, b) => b.score - a.score)`. -/
noncomputable def sortByScoreDesc (l : List SearchResult) : List SearchResult :=
  l.foldr insertDesc []

set_option linter.unusedVariables false in
/-- The source's `searchDocuments`.  The `documents` parameter is accepted,
as in the source, and never read. -/
noncomputable def searchDocuments (st : EngineState) (query : Str)
    (documents : List Document) : List SearchResult :=
  if st.corpus = [] then []
  else
    let queryTokens := preprocessText query
    let queryTF := calculateTF queryTokens
    let queryTFIDF := calculateTFIDF st.corpus queryTF
    let cands := candidateIds st.invertedIndex queryTokens
    let results := scoreCandidates st.corpus queryTFIDF cands
    (sortByScoreDesc results).take 5

/-- A public mutating operation of the engine. -/
inductive EngineOp
  | add (doc : Document)
  | clear

/-- Apply one mutating operation. -/
def applyOp (st : EngineState) : EngineOp → EngineState
  | EngineOp.add doc => addDocument st doc
  | EngineOp.clear => clearCorpus st

/-- The state after a sequence of mutating operations from the pristine
state. -/
def runOps (ops : List EngineOp) : EngineState :=
  ops.foldl applyOp initialState

/-! ### Concrete fixtures used by witness theorems -/

/-- A sample document for exercising `addDocument`. -/
def sampleDoc : Document :=
  ⟨"1".toList, "x".toList, "cats and dogs".toList⟩

/-- The one-operation history that adds `sampleDoc`. -/
def sampleOps : List EngineOp :=
  [EngineOp.add sampleDoc]

/-- A processed document holding only the term `cat`. -/
def pdocCat : ProcessedDocument :=
  ⟨"1".toList, [], [], ["cat".toList], [("cat".toList, 1)]⟩

/-- A processed document holding only the term `dog`. -/
def pdocDog : ProcessedDocument :=
  ⟨"2".toList, [], [], ["dog".toList], [("dog".toList, 1)]⟩

/-- A two-document corpus in which `cat` occurs in exactly one document. -/
def sampleCorpus : List ProcessedDocument :=
  [pdocCat, pdocDog]

/-- A sample sparse vector with a single non-zero entry. -/
noncomputable def sampleVecA : List (Str × ℝ) :=
  [("cat".toList, 2)]

/-- A second sample sparse vector sharing the term `cat` with `sampleVecA`. -/
noncomputable def sampleVecB : List (Str × ℝ) :=
  [("cat".toList, 1), ("dog".toList, 3)]

/-- Sample tokens for exercising `calculateTF`. -/
def sampleTokens : List Str :=
  ["cat".toList, "cat".toList, "dog".toList]

/-! ## Sanity checks of the embedding on concrete inputs -/

example : stem "running".toList = "runn".toList := by decide
example : stem "cats".toList = "cat".toList := by decide
example : stem "ing".toList = "ing".toList := by decide
example : preprocessText "Cats are great pets!".toList =
    ["cat".toList, "great".toList, "pet".toList] := by decide
example : preprocessText "ab_cd".toList = ["ab_cd".toList] := by decide
example : specNormalize "ab_cd".toList = [] := by decide
example : keysOf (calculateTF sampleTokens) = ["cat".toList, "dog".toList] := by decide

/-! ## Lemmas about the normalizer and the stemmer -/

/-- `find?` returns the element at the first index satisfying the test. -/
lemma find?_eq_of_first {α : Type} (p : α → Bool) (l : List α) :
    ∀ (i : Nat) (hi : i < l.length), p (l.get ⟨i, hi⟩) = true →
    (∀ (j : Nat) (hj : j < i), p (l.get ⟨j, lt_trans hj hi⟩) = false) →
    l.find? p = some (l.get ⟨i, hi⟩) := by
  induction l with
  | nil => intro i hi; exact absurd hi (by simp)
  | cons a l ih =>
    intro i hi hp hmin
    cases i with
    | zero => exact List.find?_cons_of_pos l hp
    | succ i =>
      have ha : p a = false := hmin 0 (Nat.succ_pos i)
      rw [List.find?_cons_of_neg _ (by simp [ha])]
      exact ih i (Nat.lt_of_succ_lt_succ hi) hp
        (fun j hj => hmin (j + 1) (Nat.succ_lt_succ hj))

/-- Stemming a token longer than 2 characters leaves more than 2 characters:
either nothing is stripped, or the length guard `suffix.length + 2 < length`
keeps the remainder longer than 2. -/
lemma stem_length_gt_two {t : Str} (h : 2 < t.length) : 2 < (stem t).length := by
  simp only [stem]
  cases hfind : List.find? (fun suf => stemCond (List.map Char.toLower t) suf) suffixList with
  | none => simpa using h
  | some suf =>
    have hc := List.find?_some hfind
    simp only [stemCond, Bool.and_eq_true, decide_eq_true_eq, List.length_map] at hc
    simp only [List.length_take, List.length_map]
    omega

/-- Every token produced by `preprocessText` has length at least 3. -/
lemma preprocess_token_length {text tok : Str} (h : tok ∈ preprocessText text) :
    3 ≤ tok.length := by
  unfold preprocessText at h
  rcases List.mem_map.mp h with ⟨t, ht, rfl⟩
  have hcond := (List.mem_filter.mp ht).2
  simp only [Bool.and_eq_true, decide_eq_true_eq] at hcond
  exact stem_length_gt_two hcond.2

/-- C5 counterexample: on the input `"ab_cd"` the source pipeline keeps the
underscore (it is a `\w` character), the spec's letter-digit-whitespace
pipeline does not, and the outputs differ. -/
theorem c5_counterexample_underscore :
    preprocessText "ab_cd".toList ≠ specNormalize "ab_cd".toList := by decide

/-- C5 (amended): `preprocessText` equals the spec's step-by-step pipeline
once the replacement step keeps underscores, as the regex class `\w` does:
lowercase; replace every character that is not a letter, digit, or
underscore, and not whitespace, with a space; split on runs of whitespace
dropping empty tokens; drop stopwords; drop tokens of length at most 2; stem
each surviving token. -/
theorem c5_normalize_refines_amended_pipeline (text : Str) :
    preprocessText text = specNormalizeAmended text := by
  unfold preprocessText specNormalizeAmended
  rw [List.filter_filter]
  congr 1
  exact List.filter_congr (fun t _ => Bool.and_comm _ _)

/-- C6: on a lowercase token, `stem` strips the first suffix of the declared
list whose guard (token ends with the suffix and is longer than
`suffix.length + 2`) holds, and returns the token unchanged when no suffix
passes the guard. -/
theorem c6_stem_first_match (w : Str) (hw : w.map Char.toLower = w) :
    ((∀ suf ∈ suffixList, stemCond w suf = false) → stem w = w) ∧
    (∀ (i : Nat) (hi : i < suffixList.length),
      stemCond w (suffixList.get ⟨i, hi⟩) = true →
      (∀ (j : Nat) (hj : j < i), stemCond w (suffixList.get ⟨j, lt_trans hj hi⟩) = false) →
      stem w = w.take (w.length - (suffixList.get ⟨i, hi⟩).length)) := by
  constructor
  · intro hall
    simp only [stem]
    rw [hw]
    rw [List.find?_eq_none.mpr (fun suf hs => by simp [hall suf hs])]
  · intro i hi hp hmin
    simp only [stem]
    rw [hw, find?_eq_of_first _ _ i hi hp hmin]

/-- C6 witness: `"running"` matches the first suffix `"ing"` under the guard
(7 > 3 + 2) and stems to `"runn"`. -/
theorem c6_witness_running : stem "running".toList = "runn".toList := by
  have h := (c6_stem_first_match "running".toList (by decide)).2 0 (by decide)
    (by decide) (fun j hj => absurd hj (Nat.not_lt_zero j))
  exact h.trans (by decide)

/-- C7: the `documents` parameter of `searchDocuments` (the candidate pool of
the original design) has no influence on the result; scoring runs against the
internally held corpus only. -/
theorem c7_candidate_pool_unused (st : EngineState) (query : Str)
    (d1 d2 : List Document) :
    searchDocuments st query d1 = searchDocuments st query d2 := rfl

/-! ## Lemmas about association lists and term frequency -/

@[simp] lemma alookup_nil {β : Type} (t : Str) :
    alookup t ([] : List (Str × β)) = none := rfl

@[simp] lemma alookup_cons {β : Type} (t k : Str) (v : β) (rest : List (Str × β)) :
    alookup t ((k, v) :: rest) = if k = t then some v else alookup t rest := rfl

@[simp] lemma bumpCount_nil (t : Str) : bumpCount [] t = [(t, 1)] := rfl

@[simp] lemma bumpCount_cons (k : Str) (c : Nat) (rest : List (Str × Nat)) (t : Str) :
    bumpCount ((k, c) :: rest) t
      = if k = t then (k, c + 1) :: rest else (k, c) :: bumpCount rest t := rfl

@[simp] lemma keysOf_nil {β : Type} : keysOf ([] : List (Str × β)) = [] := rfl

@[simp] lemma keysOf_cons {β : Type} (k : Str) (v : β) (rest : List (Str × β)) :
    keysOf ((k, v) :: rest) = k :: keysOf rest := rfl

/-- A successful lookup comes from a binding of the list. -/
lemma alookup_mem {β : Type} {m : List (Str × β)} {t : Str} {v : β}
    (h : alookup t m = some v) : (t, v) ∈ m := by
  induction m with
  | nil => exact absurd h (by simp)
  | cons p rest ih =>
    obtain ⟨k, x⟩ := p
    rcases eq_or_ne k t with rfl | hk
    · rw [alookup_cons, if_pos rfl] at h
      injection h with h
      exact h ▸ List.mem_cons_self _ _
    · rw [alookup_cons, if_neg hk] at h
      exact List.mem_cons_of_mem _ (ih h)

/-- With distinct keys, every binding is found by lookup. -/
lemma alookup_of_mem_nodup {β : Type} {m : List (Str × β)}
    (hnd : (keysOf m).Nodup) {t : Str} {v : β} (h : (t, v) ∈ m) :
    alookup t m = some v := by
  induction m with
  | nil => exact absurd h (List.not_mem_nil _)
  | cons p rest ih =>
    obtain ⟨k, x⟩ := p
    rw [keysOf_cons, List.nodup_cons] at hnd
    rcases List.mem_cons.mp h with heq | hmem
    · cases heq
      rw [alookup_cons, if_pos rfl]
    · have hk : k ≠ t := by
        rintro rfl
        exact hnd.1 (List.mem_map.mpr ⟨(k, v), hmem, rfl⟩)
      rw [alookup_cons, if_neg hk]
      exact ih hnd.2 hmem

/-- A lookup succeeds exactly when the key is present. -/
lemma alookup_isSome_iff {β : Type} {m : List (Str × β)} {t : Str} :
    (alookup t m).isSome = true ↔ t ∈ keysOf m := by
  induction m with
  | nil => simp
  | cons p rest ih =>
    obtain ⟨k, x⟩ := p
    rw [alookup_cons, keysOf_cons]
    rcases eq_or_ne k t with rfl | hk
    · simp
    · rw [if_neg hk, List.mem_cons]
      rw [ih]
      simp [Ne.symm hk]

/-- Bumping a token's count sets its looked-up count to one more. -/
lemma alookup_bumpCount_self (m : List (Str × Nat)) (t : Str) :
    alookup t (bumpCount m t) = some ((alookup t m).getD 0 + 1) := by
  induction m with
  | nil => simp
  | cons p rest ih =>
    obtain ⟨k, c⟩ := p
    rcases eq_or_ne k t with rfl | hk
    · simp
    · rw [bumpCount_cons, if_neg hk, alookup_cons, if_neg hk,
        alookup_cons, if_neg hk]
      exact ih

/-- Bumping one token's count leaves other tokens' lookups unchanged. -/
lemma alookup_bumpCount_ne (m : List (Str × Nat)) {u t : Str} (h : u ≠ t) :
    alookup u (bumpCount m t) = alookup u m := by
  induction m with
  | nil => simp [Ne.symm h]
  | cons p rest ih =>
    obtain ⟨k, c⟩ := p
    rcases eq_or_ne k t with rfl | hk
    · rw [bumpCount_cons, if_pos rfl, alookup_cons, alookup_cons,
        if_neg (Ne.symm h), if_neg (Ne.symm h)]
    · rw [bumpCount_cons, if_neg hk, alookup_cons, alookup_cons]
      rcases eq_or_ne k u with rfl | hku
      · rw [if_pos rfl, if_pos rfl]
      · rw [if_neg hku, if_neg hku]
        exact ih

/-- The keys present after a bump: the old keys plus the bumped token. -/
lemma mem_keysOf_bumpCount {m : List (Str × Nat)} {t u : Str} :
    u ∈ keysOf (bumpCount m t) ↔ u ∈ keysOf m ∨ u = t := by
  induction m with
  | nil => simp [eq_comm]
  | cons p rest ih =>
    obtain ⟨k, c⟩ := p
    rcases eq_or_ne k t with rfl | hk
    · simp [List.mem_cons]
      tauto
    · rw [bumpCount_cons, if_neg hk, keysOf_cons, keysOf_cons,
        List.mem_cons, List.mem_cons, ih]
      tauto

/-- Bumping preserves distinctness of keys. -/
lemma nodup_keysOf_bumpCount (m : List (Str × Nat)) (t : Str)
    (h : (keysOf m).Nodup) : (keysOf (bumpCount m t)).Nodup := by
  induction m with
  | nil => simp
  | cons p rest ih =>
    obtain ⟨k, c⟩ := p
    rw [keysOf_cons, List.nodup_cons] at h
    rcases eq_or_ne k t with rfl | hk
    · rw [bumpCount_cons, if_pos rfl, keysOf_cons, List.nodup_cons]
      exact ⟨h.1, h.2⟩
    · rw [bumpCount_cons, if_neg hk, keysOf_cons, List.nodup_cons]
      refine ⟨fun hmem => ?_, ih h.2⟩
      rcases mem_keysOf_bumpCount.mp hmem with hold | rfl
      · exact h.1 hold
      · exact hk rfl

/-- Folding the counting loop adds each token's number of occurrences to its
looked-up count. -/
lemma alookup_foldl_bumpCount (tokens : List Str) :
    ∀ (m : List (Str × Nat)) (t : Str),
      (alookup t (tokens.foldl bumpCount m)).getD 0
        = (alookup t m).getD 0 + tokens.count t := by
  induction tokens with
  | nil => intro m t; simp
  | cons tok toks ih =>
    intro m t
    simp only [List.foldl_cons]
    rw [ih]
    rcases eq_or_ne tok t with rfl | hne
    · rw [alookup_bumpCount_self]
      simp [List.count_cons]
      omega
    · rw [alookup_bumpCount_ne _ (Ne.symm hne)]
      simp [List.count_cons, hne]

/-- The keys present after the counting loop are the old keys plus the
tokens counted. -/
lemma mem_keysOf_foldl_bumpCount (tokens : List Str) :
    ∀ (m : List (Str × Nat)) (u : Str),
      u ∈ keysOf (tokens.foldl bumpCount m) ↔ u ∈ keysOf m ∨ u ∈ tokens := by
  induction tokens with
  | nil => intro m u; simp
  | cons tok toks ih =>
    intro m u
    simp only [List.foldl_cons]
    rw [ih, mem_keysOf_bumpCount, List.mem_cons]
    tauto

/-- The counting loop preserves distinctness of keys. -/
lemma nodup_keysOf_foldl_bumpCount (tokens : List Str) :
    ∀ (m : List (Str × Nat)), (keysOf m).Nodup →
      (keysOf (tokens.foldl bumpCount m)).Nodup := by
  induction tokens with
  | nil => intro m h; simpa using h
  | cons tok toks ih =>
    intro m h
    simpa using ih _ (nodup_keysOf_bumpCount m tok h)

/-- Scaling every value leaves the keys unchanged. -/
lemma keysOf_map_scale (m : List (Str × Nat)) (f : Str × Nat → ℚ) :
    keysOf (m.map (fun p => (p.1, f p))) = keysOf m := by
  simp [keysOf, List.map_map, Function.comp]

/-- The keys of `calculateTF tokens` are exactly the tokens of the list. -/
lemma mem_keysOf_calculateTF {tokens : List Str} {u : Str} :
    u ∈ keysOf (calculateTF tokens) ↔ u ∈ tokens := by
  unfold calculateTF
  rw [keysOf_map_scale, mem_keysOf_foldl_bumpCount]
  simp

/-- The keys of `calculateTF tokens` hold no duplicates. -/
lemma nodup_keysOf_calculateTF (tokens : List Str) :
    (keysOf (calculateTF tokens)).Nodup := by
  unfold calculateTF
  rw [keysOf_map_scale]
  exact nodup_keysOf_foldl_bumpCount tokens [] (by simp)

/-- Every entry of `calculateTF` equals occurrence count over total count. -/
lemma calculateTF_entry {tokens : List Str} {p : Str × ℚ}
    (h : p ∈ calculateTF tokens) :
    p.2 = (tokens.count p.1 : ℚ) / (tokens.length : ℚ) := by
  unfold calculateTF at h
  rcases List.mem_map.mp h with ⟨q, hq, rfl⟩
  have hnd : (keysOf (tokens.foldl bumpCount [])).Nodup :=
    nodup_keysOf_foldl_bumpCount tokens [] (by simp)
  have hl : alookup q.1 (tokens.foldl bumpCount []) = some q.2 :=
    alookup_of_mem_nodup hnd hq
  have hcount := alookup_foldl_bumpCount tokens [] q.1
  rw [hl] at hcount
  simp only [alookup_nil, Option.getD_none, Option.getD_some, Nat.zero_add] at hcount
  simp [hcount]

/-- C8: `calculateTF` returns a mapping whose keys are exactly the distinct
tokens of the list (each key once), each entry equals
`count(term) / totalTokens`, and the empty token list yields the empty
mapping. -/
theorem c8_calculateTF_spec (tokens : List Str) :
    (∀ t, t ∈ keysOf (calculateTF tokens) ↔ t ∈ tokens) ∧
    (keysOf (calculateTF tokens)).Nodup ∧
    (∀ p ∈ calculateTF tokens,
      p.2 = (tokens.count p.1 : ℚ) / (tokens.length : ℚ)) ∧
    calculateTF [] = [] :=
  ⟨fun _ => mem_keysOf_calculateTF, nodup_keysOf_calculateTF tokens,
    fun _ h => calculateTF_entry h, rfl⟩

/-- C8 witness: on the token list `cat, cat, dog` the key `cat` is present. -/
theorem c8_witness_keys :
    "cat".toList ∈ keysOf (calculateTF sampleTokens) :=
  ((c8_calculateTF_spec sampleTokens).1 "cat".toList).mpr (by decide)

/-! ## State invariants under the public operations -/

/-- A property preserved by every public operation holds in every reachable
state. -/
lemma runOps_invariant (P : EngineState → Prop) (h0 : P initialState)
    (hstep : ∀ st op, P st → P (applyOp st op)) (ops : List EngineOp) :
    P (runOps ops) := by
  suffices h : ∀ (l : List EngineOp) (st : EngineState), P st → P (l.foldl applyOp st) by
    exact h ops initialState h0
  intro l
  induction l with
  | nil => intro st h; exact h
  | cons op rest ih => intro st h; exact ih _ (hstep st op h)

/-- Membership after folding `addUnique`: an element is an old one or one of
the added ones. -/
lemma mem_foldl_addUnique (l : List Str) :
    ∀ (v : List Str) (t : Str), t ∈ l.foldl addUnique v → t ∈ v ∨ t ∈ l := by
  induction l with
  | nil => intro v t h; exact Or.inl h
  | cons x xs ih =>
    intro v t h
    rcases ih _ t h with hv | hx
    · unfold addUnique at hv
      by_cases hxv : x ∈ v
      · rw [if_pos hxv] at hv
        exact Or.inl hv
      · rw [if_neg hxv] at hv
        rcases List.mem_append.mp hv with h1 | h2
        · exact Or.inl h1
        · exact Or.inr (List.mem_cons.mpr (Or.inl (List.mem_singleton.mp h2)))
    · exact Or.inr (List.mem_cons_of_mem _ hx)

/-- C10: every token produced by the normalizer has length at least 3, and
consequently, in every reachable engine state, every vocabulary term and
every key of a stored document's term-frequency mapping has length at
least 3. -/
theorem c10_min_token_length (ops : List EngineOp) (text : Str) :
    (∀ tok ∈ preprocessText text, 3 ≤ tok.length) ∧
    (∀ t ∈ (runOps ops).vocabulary, 3 ≤ t.length) ∧
    (∀ d ∈ (runOps ops).corpus, ∀ t ∈ keysOf d.termFreq, 3 ≤ t.length) := by
  refine ⟨fun _ h => preprocess_token_length h, ?_⟩
  have hinv := runOps_invariant
    (fun st => (∀ t ∈ st.vocabulary, 3 ≤ t.length) ∧
      ∀ d ∈ st.corpus, ∀ t ∈ keysOf d.termFreq, 3 ≤ t.length)
    ⟨by simp [initialState], by simp [initialState]⟩ ?_ ops
  · exact hinv
  · intro st op hP
    cases op with
    | clear =>
      simp only [applyOp, clearCorpus, initialState]
      exact ⟨by simp, by simp⟩
    | add doc =>
      simp only [applyOp, addDocument]
      constructor
      · intro t ht
        rcases mem_foldl_addUnique _ _ t ht with hv | htok
        · exact hP.1 t hv
        · exact preprocess_token_length htok
      · intro d hd t ht
        rcases List.mem_append.mp hd with hold | hnew
        · exact hP.2 d hold t ht
        · rw [List.mem_singleton.mp hnew] at ht
          exact preprocess_token_length (mem_keysOf_calculateTF.mp ht)

/-- C10 witness: the first token of a concrete normalization has length at
least 3. -/
theorem c10_witness_concrete : 3 ≤ ("hello".toList).length :=
  (c10_min_token_length [] "hello world".toList).1 "hello".toList (by decide)

/-! ## Inverse document frequency -/

/-- C3: the IDF of a term is 0 when its document frequency is 0 and
`ln(totalDocuments / documentFrequency)` otherwise; it is strictly positive
when the term occurs in at least one but fewer than all stored documents,
and exactly 0 when it occurs in every document of a non-empty corpus. -/
theorem c3_idf_spec (corpus : List ProcessedDocument) (term : Str) :
    (documentFrequency corpus term = 0 → calculateIDF corpus term = 0) ∧
    (0 < documentFrequency corpus term →
      calculateIDF corpus term
        = Real.log ((corpus.length : ℝ) / (documentFrequency corpus term : ℝ))) ∧
    (0 < documentFrequency corpus term →
      documentFrequency corpus term < corpus.length →
      0 < calculateIDF corpus term) ∧
    (documentFrequency corpus term = corpus.length → 0 < corpus.length →
      calculateIDF corpus term = 0) := by
  refine ⟨?_, ?_, ?_, ?_⟩
  · intro h
    simp [calculateIDF, h]
  · intro h
    simp [calculateIDF, h]
  · intro h1 h2
    have heq : calculateIDF corpus term
        = Real.log ((corpus.length : ℝ) / (documentFrequency corpus term : ℝ)) := by
      simp [calculateIDF, h1]
    rw [heq]
    apply Real.log_pos
    have hdf : (0 : ℝ) < (documentFrequency corpus term : ℝ) := by exact_mod_cast h1
    exact (one_lt_div hdf).mpr (by exact_mod_cast h2)
  · intro heq hpos
    have h1 : 0 < documentFrequency corpus term := heq ▸ hpos
    have hn : ((corpus.length : ℕ) : ℝ) ≠ 0 := by exact_mod_cast hpos.ne'
    simp [calculateIDF, h1, heq, div_self hn]

/-- C3 witness: in the two-document sample corpus, `cat` occurs in exactly
one document and its IDF is strictly positive. -/
theorem c3_witness_positive : 0 < calculateIDF sampleCorpus "cat".toList :=
  (c3_idf_spec sampleCorpus "cat".toList).2.2.1 (by decide) (by decide)

/-! ## The inverted index -/

@[simp] lemma addPosting_nil (term docId : Str) :
    addPosting [] term docId = [(term, [docId])] := rfl

@[simp] lemma addPosting_cons (t : Str) (ids : List Str)
    (rest : List (Str × List Str)) (term docId : Str) :
    addPosting ((t, ids) :: rest) term docId
      = if t = term then
          (t, if ids.contains docId then ids else ids ++ [docId]) :: rest
        else (t, ids) :: addPosting rest term docId := rfl

/-- Posting a document under one term leaves other terms' lookups alone. -/
lemma alookup_addPosting_ne (idx : List (Str × List Str)) {u term : Str}
    (docId : Str) (h : u ≠ term) :
    alookup u (addPosting idx term docId) = alookup u idx := by
  induction idx with
  | nil => simp [Ne.symm h]
  | cons p rest ih =>
    obtain ⟨t, ids⟩ := p
    rcases eq_or_ne t term with rfl | ht
    · rw [addPosting_cons, if_pos rfl, alookup_cons, alookup_cons,
        if_neg (Ne.symm h), if_neg (Ne.symm h)]
    · rw [addPosting_cons, if_neg ht, alookup_cons, alookup_cons]
      rcases eq_or_ne t u with rfl | htu
      · rw [if_pos rfl, if_pos rfl]
      · rw [if_neg htu, if_neg htu]
        exact ih

/-- The posting list of the posted term after a post. -/
lemma postings_addPosting_self (idx : List (Str × List Str)) (term docId : Str) :
    postings (addPosting idx term docId) term
      = if docId ∈ postings idx term then postings idx term
        else postings idx term ++ [docId] := by
  induction idx with
  | nil => simp [postings]
  | cons p rest ih =>
    obtain ⟨t, ids⟩ := p
    rcases eq_or_ne t term with rfl | ht
    · simp only [addPosting_cons, if_pos rfl, postings, alookup_cons,
        Option.getD_some]
      by_cases hmem : docId ∈ ids
      · simp [hmem]
      · simp [hmem]
    · simp only [addPosting_cons, if_neg ht, postings, alookup_cons, if_neg ht]
      exact ih

/-- After a post, a term's lookup succeeds exactly when it succeeded before
or the term is the posted one. -/
lemma isSome_addPosting {idx : List (Str × List Str)} {term docId u : Str} :
    (alookup u (addPosting idx term docId)).isSome = true
      ↔ (alookup u idx).isSome = true ∨ u = term := by
  rcases eq_or_ne u term with rfl | hu
  · simp only [or_true, iff_true]
    rw [alookup_isSome_iff]
    induction idx with
    | nil => simp
    | cons p rest ih =>
      obtain ⟨t, ids⟩ := p
      rcases eq_or_ne t u with rfl | ht
      · simp
      · rw [addPosting_cons, if_neg ht, keysOf_cons, List.mem_cons]
        exact Or.inr ih
  · rw [alookup_addPosting_ne idx docId hu]
    simp [hu]

/-- Membership in posting lists after a post. -/
lemma mem_postings_addPosting {idx : List (Str × List Str)}
    {term docId u j : Str} :
    j ∈ postings (addPosting idx term docId) u
      ↔ j ∈ postings idx u ∨ (u = term ∧ j = docId) := by
  rcases eq_or_ne u term with rfl | hu
  · rw [postings_addPosting_self]
    by_cases hmem : docId ∈ postings idx u
    · rw [if_pos hmem]
      constructor
      · exact fun h => Or.inl h
      · rintro (h | ⟨-, rfl⟩)
        · exact h
        · exact hmem
    · rw [if_neg hmem, List.mem_append, List.mem_singleton]
      tauto
  · rw [show postings (addPosting idx term docId) u = postings idx u from by
      simp [postings, alookup_addPosting_ne idx docId hu]]
    simp [hu]

/-- Posting preserves duplicate-freeness of every posting list. -/
lemma nodup_postings_addPosting {idx : List (Str × List Str)} (term docId : Str)
    (h : ∀ u, (postings idx u).Nodup) (u : Str) :
    (postings (addPosting idx term docId) u).Nodup := by
  rcases eq_or_ne u term with rfl | hu
  · rw [postings_addPosting_self]
    by_cases hmem : docId ∈ postings idx u
    · rw [if_pos hmem]
      exact h u
    · rw [if_neg hmem]
      simp [List.nodup_append, h u, hmem]
  · rw [show postings (addPosting idx term docId) u = postings idx u from by
      simp [postings, alookup_addPosting_ne idx docId hu]]
    exact h u

/-- Membership in posting lists after indexing a run of term entries for one
document id. -/
lemma mem_postings_foldl_entries (entries : List (Str × ℚ)) (docId : Str) :
    ∀ (idx : List (Str × List Str)) (u j : Str),
      j ∈ postings (entries.foldl (fun acc p => addPosting acc p.1 docId) idx) u
        ↔ j ∈ postings idx u ∨ (u ∈ entries.map Prod.fst ∧ j = docId) := by
  induction entries with
  | nil => intro idx u j; simp
  | cons e es ih =>
    intro idx u j
    simp only [List.foldl_cons, List.map_cons, List.mem_cons]
    rw [ih, mem_postings_addPosting]
    tauto

/-- Lookup success after indexing a run of term entries for one document. -/
lemma isSome_foldl_entries (entries : List (Str × ℚ)) (docId : Str) :
    ∀ (idx : List (Str × List Str)) (u : Str),
      (alookup u (entries.foldl (fun acc p => addPosting acc p.1 docId) idx)).isSome = true
        ↔ (alookup u idx).isSome = true ∨ u ∈ entries.map Prod.fst := by
  induction entries with
  | nil => intro idx u; simp
  | cons e es ih =>
    intro idx u
    simp only [List.foldl_cons, List.map_cons, List.mem_cons]
    rw [ih, isSome_addPosting]
    tauto

/-- Indexing a run of entries preserves duplicate-free posting lists. -/
lemma nodup_foldl_entries (entries : List (Str × ℚ)) (docId : Str) :
    ∀ (idx : List (Str × List Str)),
      (∀ u, (postings idx u).Nodup) →
      ∀ u, (postings (entries.foldl (fun acc p => addPosting acc p.1 docId) idx) u).Nodup := by
  induction entries with
  | nil => intro idx h; exact h
  | cons e es ih =>
    intro idx h
    exact ih _ (nodup_postings_addPosting e.1 docId h)

/-- Membership in posting lists after indexing a list of documents. -/
lemma mem_postings_build (cs : List ProcessedDocument) :
    ∀ (idx : List (Str × List Str)) (u j : Str),
      j ∈ postings (cs.foldl indexDocTerms idx) u
        ↔ j ∈ postings idx u ∨ ∃ d ∈ cs, d.id = j ∧ u ∈ keysOf d.termFreq := by
  induction cs with
  | nil => intro idx u j; simp
  | cons d ds ih =>
    intro idx u j
    simp only [List.foldl_cons]
    rw [ih, List.exists_mem_cons_iff]
    simp only [indexDocTerms]
    rw [mem_postings_foldl_entries]
    constructor
    · rintro ((h | ⟨hk, rfl⟩) | h)
      · exact Or.inl h
      · exact Or.inr (Or.inl ⟨rfl, hk⟩)
      · exact Or.inr (Or.inr h)
    · rintro (h | ⟨rfl, hk⟩ | h)
      · exact Or.inl (Or.inl h)
      · exact Or.inl (Or.inr ⟨hk, rfl⟩)
      · exact Or.inr h

/-- Lookup success after indexing a list of documents. -/
lemma isSome_build (cs : List ProcessedDocument) :
    ∀ (idx : List (Str × List Str)) (u : Str),
      (alookup u (cs.foldl indexDocTerms idx)).isSome = true
        ↔ (alookup u idx).isSome = true ∨ ∃ d ∈ cs, u ∈ keysOf d.termFreq := by
  induction cs with
  | nil => intro idx u; simp
  | cons d ds ih =>
    intro idx u
    simp only [List.foldl_cons]
    rw [ih, List.exists_mem_cons_iff]
    simp only [indexDocTerms]
    rw [isSome_foldl_entries]
    tauto

/-- Indexing a list of documents preserves duplicate-free posting lists. -/
lemma nodup_build (cs : List ProcessedDocument) :
    ∀ (idx : List (Str × List Str)),
      (∀ u, (postings idx u).Nodup) →
      ∀ u, (postings (cs.foldl indexDocTerms idx) u).Nodup := by
  induction cs with
  | nil => intro idx h; exact h
  | cons d ds ih =>
    intro idx h
    exact ih _ (nodup_foldl_entries d.termFreq d.id idx h)

/-- In every reachable state the stored inverted index is the one rebuilt
from the stored corpus (the source rebuilds it on every mutation). -/
lemma runOps_index_eq_build (ops : List EngineOp) :
    (runOps ops).invertedIndex = buildInvertedIndex (runOps ops).corpus := by
  refine runOps_invariant
    (fun st => st.invertedIndex = buildInvertedIndex st.corpus) rfl ?_ ops
  intro st op _
  cases op with
  | add doc => rfl
  | clear => rfl

/-- C2: after every sequence of `addDocument` and `clear` operations, a term
has a posting list exactly when some stored document's term-frequency mapping
holds it; the posting list carries no duplicate ids; and an id is posted
under a term exactly when some stored document with that id holds the term. -/
theorem c2_index_consistent_with_corpus (ops : List EngineOp) (term : Str) :
    ((alookup term (runOps ops).invertedIndex).isSome = true
      ↔ ∃ d ∈ (runOps ops).corpus, term ∈ keysOf d.termFreq) ∧
    (postings (runOps ops).invertedIndex term).Nodup ∧
    (∀ j, j ∈ postings (runOps ops).invertedIndex term
      ↔ ∃ d ∈ (runOps ops).corpus, d.id = j ∧ term ∈ keysOf d.termFreq) := by
  rw [runOps_index_eq_build]
  unfold buildInvertedIndex
  refine ⟨?_, ?_, ?_⟩
  · rw [isSome_build]
    simp
  · exact nodup_build (runOps ops).corpus [] (fun u => by simp [postings]) term
  · intro j
    rw [mem_postings_build]
    simp [postings]

/-- C2 witness: after adding the sample document, the id `"1"` is posted
under the term `cat`. -/
theorem c2_witness_posting :
    "1".toList ∈ postings (runOps sampleOps).invertedIndex "cat".toList :=
  (((c2_index_consistent_with_corpus sampleOps "cat".toList).2.2 "1".toList)).mpr
    (by decide)

/-! ## Cosine similarity -/

/-- With distinct keys, the lookup of a binding's key is its value. -/
lemma rlookup_of_mem_nodup {v : List (Str × ℝ)} (hnd : (keysOf v).Nodup)
    {t : Str} {x : ℝ} (h : (t, x) ∈ v) : rlookup v t = x := by
  simp [rlookup, alookup_of_mem_nodup hnd h]

/-- Lookups in a vector with non-negative entries are non-negative. -/
lemma rlookup_nonneg {v : List (Str × ℝ)} (hn : ∀ p ∈ v, 0 ≤ p.2) (t : Str) :
    0 ≤ rlookup v t := by
  unfold rlookup
  cases hl : alookup t v with
  | none => simp
  | some x => simpa using hn (t, x) (alookup_mem hl)

/-- Summing a function of the looked-up values over the (distinct) keys is
summing that function of the entry values. -/
lemma map_keys_rlookup {v : List (Str × ℝ)} (hnd : (keysOf v).Nodup)
    (f : ℝ → ℝ) :
    ((keysOf v).map (fun t => f (rlookup v t))).sum
      = (v.map (fun p => f p.2)).sum := by
  induction v with
  | nil => simp
  | cons p rest ih =>
    obtain ⟨k, x⟩ := p
    rw [keysOf_cons, List.nodup_cons] at hnd
    rw [keysOf_cons]
    simp only [List.map_cons, List.sum_cons]
    have hhead : rlookup ((k, x) :: rest) k = x := by simp [rlookup]
    have htail : ∀ t ∈ keysOf rest,
        f (rlookup ((k, x) :: rest) t) = f (rlookup rest t) := by
      intro t ht
      have hk : k ≠ t := fun he => hnd.1 (he ▸ ht)
      simp [rlookup, hk]
    rw [hhead, List.map_congr_left htail, ih hnd.2]

/-- A term is common exactly when it is a key of both vectors. -/
lemma mem_commonTerms {v1 v2 : List (Str × ℝ)} {t : Str} :
    t ∈ commonTerms v1 v2 ↔ t ∈ keysOf v1 ∧ t ∈ keysOf v2 := by
  simp [commonTerms, List.mem_filter]

/-- The sum of squares of a vector's entries is non-negative. -/
lemma sumSquares_nonneg (v : List (Str × ℝ)) : 0 ≤ sumSquares v :=
  List.sum_nonneg (fun x hx => by
    rcases List.mem_map.mp hx with ⟨p, -, rfl⟩
    exact mul_self_nonneg _)

/-- The dot product over common terms of two non-negative vectors is
non-negative. -/
lemma dotCommon_nonneg {v1 v2 : List (Str × ℝ)}
    (hn1 : ∀ p ∈ v1, 0 ≤ p.2) (hn2 : ∀ p ∈ v2, 0 ≤ p.2) :
    0 ≤ dotCommon v1 v2 :=
  List.sum_nonneg (fun x hx => by
    rcases List.mem_map.mp hx with ⟨t, -, rfl⟩
    exact mul_nonneg (rlookup_nonneg hn1 t) (rlookup_nonneg hn2 t))

/-- The sum over the distinct keys of a vector of the squared lookups is the
vector's sum of squares. -/
lemma sum_sq_keys_eq_sumSquares {v : List (Str × ℝ)} (hnd : (keysOf v).Nodup) :
    (∑ t ∈ (keysOf v).toFinset, (rlookup v t) ^ 2) = sumSquares v := by
  rw [List.sum_toFinset _ hnd]
  simp only [pow_two]
  exact map_keys_rlookup hnd (fun x => x * x)

/-- Cauchy–Schwarz for the engine's sparse vectors: the dot product over
common terms is at most the product of the full norms. -/
lemma dotCommon_le_norms {v1 v2 : List (Str × ℝ)}
    (h1 : (keysOf v1).Nodup) (h2 : (keysOf v2).Nodup)
    (hn1 : ∀ p ∈ v1, 0 ≤ p.2) (hn2 : ∀ p ∈ v2, 0 ≤ p.2) :
    dotCommon v1 v2 ≤ Real.sqrt (sumSquares v1) * Real.sqrt (sumSquares v2) := by
  have hCnd : (commonTerms v1 v2).Nodup := h1.filter _
  have hdot : dotCommon v1 v2
      = ∑ t ∈ (commonTerms v1 v2).toFinset, rlookup v1 t * rlookup v2 t := by
    rw [List.sum_toFinset _ hCnd]
    rfl
  have hkey : ∀ (v : List (Str × ℝ)), (keysOf v).Nodup →
      (∀ t ∈ commonTerms v1 v2, t ∈ keysOf v) →
      (∑ t ∈ (commonTerms v1 v2).toFinset, (rlookup v t) ^ 2) ≤ sumSquares v := by
    intro v hvnd hsub
    have hsubset : (commonTerms v1 v2).toFinset ⊆ (keysOf v).toFinset := by
      intro t ht
      rw [List.mem_toFinset] at ht ⊢
      exact hsub t ht
    have hle := Finset.sum_le_sum_of_subset_of_nonneg hsubset
      (fun t _ _ => sq_nonneg (rlookup v t))
    calc (∑ t ∈ (commonTerms v1 v2).toFinset, (rlookup v t) ^ 2)
        ≤ ∑ t ∈ (keysOf v).toFinset, (rlookup v t) ^ 2 := hle
      _ = sumSquares v := sum_sq_keys_eq_sumSquares hvnd
  have hk1 := hkey v1 h1 (fun t ht => (mem_commonTerms.mp ht).1)
  have hk2 := hkey v2 h2 (fun t ht => (mem_commonTerms.mp ht).2)
  have hcs := Finset.sum_mul_sq_le_sq_mul_sq (commonTerms v1 v2).toFinset
    (fun t => rlookup v1 t) (fun t => rlookup v2 t)
  have hsq2nn : (0:ℝ) ≤ ∑ t ∈ (commonTerms v1 v2).toFinset, (rlookup v2 t) ^ 2 :=
    Finset.sum_nonneg (fun t _ => sq_nonneg _)
  have hdot2 : (dotCommon v1 v2) ^ 2 ≤ sumSquares v1 * sumSquares v2 := by
    rw [hdot]
    calc (∑ t ∈ (commonTerms v1 v2).toFinset, rlookup v1 t * rlookup v2 t) ^ 2
        ≤ (∑ t ∈ (commonTerms v1 v2).toFinset, (rlookup v1 t) ^ 2)
          * ∑ t ∈ (commonTerms v1 v2).toFinset, (rlookup v2 t) ^ 2 := hcs
      _ ≤ sumSquares v1 * sumSquares v2 :=
        mul_le_mul hk1 hk2 hsq2nn (sumSquares_nonneg v1)
  have hd0 : 0 ≤ dotCommon v1 v2 := dotCommon_nonneg hn1 hn2
  calc dotCommon v1 v2 = Real.sqrt ((dotCommon v1 v2) ^ 2) :=
        (Real.sqrt_sq hd0).symm
    _ ≤ Real.sqrt (sumSquares v1 * sumSquares v2) := Real.sqrt_le_sqrt hdot2
    _ = Real.sqrt (sumSquares v1) * Real.sqrt (sumSquares v2) :=
        Real.sqrt_mul (sumSquares_nonneg v1) _

/-- C4: cosine similarity is 0 when the vectors share no term or either full
norm vanishes; otherwise it is the dot product over common terms divided by
the product of the full norms; and on vectors with non-negative entries (and
duplicate-free keys, as JavaScript objects have) it always lies in `[0, 1]`. -/
theorem c4_cosine_similarity_spec (v1 v2 : List (Str × ℝ))
    (h1 : (keysOf v1).Nodup) (h2 : (keysOf v2).Nodup)
    (hn1 : ∀ p ∈ v1, 0 ≤ p.2) (hn2 : ∀ p ∈ v2, 0 ≤ p.2) :
    (commonTerms v1 v2 = [] → cosineSimilarity v1 v2 = 0) ∧
    (Real.sqrt (sumSquares v1) = 0 ∨ Real.sqrt (sumSquares v2) = 0 →
      cosineSimilarity v1 v2 = 0) ∧
    (commonTerms v1 v2 ≠ [] →
      ¬(Real.sqrt (sumSquares v1) = 0 ∨ Real.sqrt (sumSquares v2) = 0) →
      cosineSimilarity v1 v2
        = dotCommon v1 v2
          / (Real.sqrt (sumSquares v1) * Real.sqrt (sumSquares v2))) ∧
    (0 ≤ cosineSimilarity v1 v2 ∧ cosineSimilarity v1 v2 ≤ 1) := by
  refine ⟨?_, ?_, ?_, ?_⟩
  · intro h
    simp [cosineSimilarity, h]
  · intro h
    by_cases hc : commonTerms v1 v2 = []
    · simp [cosineSimilarity, hc]
    · simp [cosineSimilarity, hc, h]
  · intro hc hz
    simp [cosineSimilarity, hc, hz]
  · by_cases hc : commonTerms v1 v2 = []
    · simp [cosineSimilarity, hc]
    · by_cases hz : Real.sqrt (sumSquares v1) = 0 ∨ Real.sqrt (sumSquares v2) = 0
      · simp [cosineSimilarity, hc, hz]
      · push_neg at hz
        have hp1 : 0 < Real.sqrt (sumSquares v1) :=
          (Real.sqrt_nonneg _).lt_of_ne (Ne.symm hz.1)
        have hp2 : 0 < Real.sqrt (sumSquares v2) :=
          (Real.sqrt_nonneg _).lt_of_ne (Ne.symm hz.2)
        have hval : cosineSimilarity v1 v2
            = dotCommon v1 v2
              / (Real.sqrt (sumSquares v1) * Real.sqrt (sumSquares v2)) := by
          simp [cosineSimilarity, hc, hz.1, hz.2]
        rw [hval]
        constructor
        · exact div_nonneg (dotCommon_nonneg hn1 hn2) (mul_nonneg hp1.le hp2.le)
        · exact (div_le_one (mul_pos hp1 hp2)).mpr
            (dotCommon_le_norms h1 h2 hn1 hn2)

/-- C4 witness: two concrete non-negative vectors score within `[0, 1]`. -/
theorem c4_witness_bounds :
    0 ≤ cosineSimilarity sampleVecA sampleVecB
      ∧ cosineSimilarity sampleVecA sampleVecB ≤ 1 :=
  (c4_cosine_similarity_spec sampleVecA sampleVecB
    (by simp [sampleVecA]) (by simp [sampleVecB])
    (by simp [sampleVecA]) (by simp [sampleVecB])).2.2.2

/-- C9: a vector with duplicate-free keys and some non-zero entry has cosine
similarity 1 with itself. -/
theorem c9_self_similarity_one (v : List (Str × ℝ)) (hnd : (keysOf v).Nodup)
    (hnz : ∃ p ∈ v, p.2 ≠ 0) : cosineSimilarity v v = 1 := by
  have hcommon : commonTerms v v = keysOf v :=
    List.filter_eq_self.mpr (fun t ht => by simp [ht])
  have hS : 0 < sumSquares v := by
    obtain ⟨p, hp, hpne⟩ := hnz
    have hmem : p.2 * p.2 ∈ v.map (fun q => q.2 * q.2) :=
      List.mem_map.mpr ⟨p, hp, rfl⟩
    have hpos : 0 < p.2 * p.2 := mul_self_pos.mpr hpne
    have hle := List.single_le_sum (l := v.map fun q => q.2 * q.2)
      (fun x hx => by
        rcases List.mem_map.mp hx with ⟨q, -, rfl⟩
        exact mul_self_nonneg _) _ hmem
    exact lt_of_lt_of_le hpos hle
  have hdot : dotCommon v v = sumSquares v := by
    unfold dotCommon
    rw [hcommon]
    exact map_keys_rlookup hnd (fun x => x * x)
  have hne : commonTerms v v ≠ [] := by
    rw [hcommon]
    obtain ⟨p, hp, -⟩ := hnz
    have hmem : p.1 ∈ keysOf v := List.mem_map.mpr ⟨p, hp, rfl⟩
    intro h
    rw [h] at hmem
    exact List.not_mem_nil _ hmem
  have hsqrt : Real.sqrt (sumSquares v) ≠ 0 := (Real.sqrt_pos.mpr hS).ne'
  simp only [cosineSimilarity, if_neg hne]
  rw [if_neg (by rintro (h | h) <;> exact hsqrt h)]
  rw [hdot, Real.mul_self_sqrt hS.le, div_self hS.ne']

/-- C9 witness: the concrete one-entry vector scores 1 against itself. -/
theorem c9_witness_self :
    cosineSimilarity sampleVecA sampleVecA = 1 :=
  c9_self_similarity_one sampleVecA (by simp [sampleVecA])
    ⟨("cat".toList, 2), by simp [sampleVecA], by norm_num⟩

/-! ## Searching -/

/-- An element of the insertion result is the inserted element or an element
of the original list. -/
lemma mem_insertDesc {x y : SearchResult} {l : List SearchResult}
    (h : x ∈ insertDesc y l) : x = y ∨ x ∈ l := by
  induction l with
  | nil =>
    simp only [insertDesc] at h
    exact Or.inl (List.mem_singleton.mp h)
  | cons z zs ih =>
    simp only [insertDesc] at h
    by_cases hc : z.score < y.score
    · rw [if_pos hc] at h
      rcases List.mem_cons.mp h with rfl | hmem
      · exact Or.inl rfl
      · exact Or.inr hmem
    · rw [if_neg hc] at h
      rcases List.mem_cons.mp h with rfl | hmem
      · exact Or.inr (List.mem_cons_self _ _)
      · rcases ih hmem with he | hzs
        · exact Or.inl he
        · exact Or.inr (List.mem_cons_of_mem _ hzs)

/-- Inserting into a list sorted by non-increasing score keeps it sorted. -/
lemma pairwise_insertDesc {x : SearchResult} {l : List SearchResult}
    (h : l.Pairwise (fun a b => b.score ≤ a.score)) :
    (insertDesc x l).Pairwise (fun a b => b.score ≤ a.score) := by
  induction l with
  | nil => simp [insertDesc]
  | cons z zs ih =>
    have hz := (List.pairwise_cons.mp h).1
    have hzs := (List.pairwise_cons.mp h).2
    simp only [insertDesc]
    by_cases hc : z.score < x.score
    · rw [if_pos hc, List.pairwise_cons]
      refine ⟨fun b hb => ?_, h⟩
      rcases List.mem_cons.mp hb with rfl | hbz
      · exact hc.le
      · exact le_trans (hz b hbz) hc.le
    · rw [if_neg hc, List.pairwise_cons]
      refine ⟨fun b hb => ?_, ih hzs⟩
      rcases mem_insertDesc hb with rfl | hbz
      · exact le_of_not_lt hc
      · exact hz b hbz

/-- The sort produces a list ordered by non-increasing score. -/
lemma pairwise_sortByScoreDesc (l : List SearchResult) :
    (sortByScoreDesc l).Pairwise (fun a b => b.score ≤ a.score) := by
  unfold sortByScoreDesc
  induction l with
  | nil => simp
  | cons x xs ih =>
    simp only [List.foldr_cons]
    exact pairwise_insertDesc ih

/-- Sorting adds no new elements. -/
lemma mem_sortByScoreDesc {x : SearchResult} {l : List SearchResult}
    (h : x ∈ sortByScoreDesc l) : x ∈ l := by
  unfold sortByScoreDesc at h
  induction l with
  | nil => simp at h
  | cons y ys ih =>
    simp only [List.foldr_cons] at h
    rcases mem_insertDesc h with rfl | hmem
    · exact List.mem_cons_self _ _
    · exact List.mem_cons_of_mem _ (ih hmem)

/-- Every scored candidate that is kept has strictly positive score. -/
lemma scoreCandidates_pos {corpus : List ProcessedDocument}
    {qv : List (Str × ℝ)} {ids : List Str} :
    ∀ x ∈ scoreCandidates corpus qv ids, 0 < x.score := by
  intro x hx
  unfold scoreCandidates at hx
  rcases List.mem_filterMap.mp hx with ⟨docId, -, hf⟩
  dsimp only at hf
  split at hf
  · exact absurd hf (by simp)
  · split at hf
    · cases hf
      assumption
    · exact absurd hf (by simp)

/-- C1: `searchDocuments` returns at most 5 results, sorted by non-increasing
score, each with strictly positive score; on an empty corpus it returns the
empty list for any query. -/
theorem c1_search_results_shape (st : EngineState) (query : Str)
    (documents : List Document) :
    (searchDocuments st query documents).length ≤ 5 ∧
    (searchDocuments st query documents).Pairwise
      (fun a b => b.score ≤ a.score) ∧
    (∀ r ∈ searchDocuments st query documents, 0 < r.score) ∧
    (st.corpus = [] → searchDocuments st query documents = []) := by
  by_cases hc : st.corpus = []
  · refine ⟨?_, ?_, ?_, ?_⟩ <;> simp [searchDocuments, hc]
  · have hunfold : searchDocuments st query documents
        = (sortByScoreDesc (scoreCandidates st.corpus
            (calculateTFIDF st.corpus (calculateTF (preprocessText query)))
            (candidateIds st.invertedIndex (preprocessText query)))).take 5 := by
      simp [searchDocuments, hc]
    rw [hunfold]
    refine ⟨List.length_take_le 5 _, ?_, ?_, fun h => absurd h hc⟩
    · exact List.Pairwise.sublist (List.take_sublist 5 _)
        (pairwise_sortByScoreDesc _)
    · intro r hr
      exact scoreCandidates_pos r
        (mem_sortByScoreDesc ((List.take_sublist 5 _).subset hr))

/-- C1 witness: the search on the pristine (empty-corpus) state returns the
empty list. -/
theorem c1_witness_empty_corpus :
    searchDocuments initialState "cats".toList [] = [] :=
  (c1_search_results_shape initialState "cats".toList []).2.2.2 rfl
